import Mathlib

/-!
Shallow embedding of the nonogram solver (src/nonogram.rs and src/solver.rs).

Rust `usize` values are modelled as `Nat`.  Vectors are modelled as `List`.
Operations that can panic in Rust (indexing an empty vector, underflowing
subtraction) are modelled with `Option`, where `none` stands for the panic.
-/

-- ## CellState (src/nonogram.rs)

/-- The three states of a grid cell (`CellState` in src/nonogram.rs). -/
inductive CellState where
  | Undecided
  | Empty
  | Filled
deriving DecidableEq, Repr

/-- Fold helper for consensus (`CellState::consensus_eq`): equality that
returns `Undecided` instead of `false` when the two states differ. -/
def CellState.consensus_eq (a b : CellState) : CellState :=
  if a = b then a else CellState.Undecided

/-- Grid-acceptance relation (`CellState::accepts`): the grid state `s`
accepts the candidate state `other` iff `s` is `Undecided` or equal. -/
def CellState.accepts (s other : CellState) : Bool :=
  decide (s = CellState.Undecided) || decide (s = other)

/-- A row or column constraint: the list of run lengths. -/
abbrev Constraint := List Nat

/-- A candidate mask: one fully specified placement of a line (solver.rs). -/
abbrev CandidateMask := List CellState

/-- The set of candidate masks still possible for one line. -/
abbrev CandidateMaskSet := List CandidateMask

-- ## The Nonogram grid (src/nonogram.rs)

/-- The `Nonogram` struct: dimensions, row-major cells, constraints. -/
structure Nonogram where
  width : Nat
  height : Nat
  cells : List CellState
  rows : List Constraint
  cols : List Constraint
deriving DecidableEq, Repr

/-- `Nonogram::new`: all cells start `Undecided`.  Argument order follows
the source: width, height, cols, rows. -/
def Nonogram.new (width height : Nat) (cols rows : List Constraint) : Nonogram :=
  { width := width
    height := height
    cells := List.replicate (width * height) CellState.Undecided
    rows := rows
    cols := cols }

/-- `Nonogram::xy_to_index`: row-major addressing `y * width + x`. -/
def Nonogram.xy_to_index (g : Nonogram) (x y : Nat) : Nat :=
  y * g.width + x

/-- `Nonogram::row`: `None` when `y >= height`, otherwise the row slice
`cells[xy(0,y) .. xy(width,y)]`.  The slice is in bounds whenever
`cells.length = width * height`, which `Nonogram::new` guarantees. -/
def Nonogram.row (g : Nonogram) (y : Nat) : Option (List CellState) :=
  if g.height ≤ y then none
  else some ((g.cells.drop (g.xy_to_index 0 y)).take g.width)

/-- `Nonogram::column`: `None` when `x >= width`, otherwise the gathered
vector of `cells[xy(x,y)]` for `y` in `0..height`.  Each index read is in
bounds whenever `cells.length = width * height`; a (then unreachable)
out-of-range read is given the default `Undecided`. -/
def Nonogram.column (g : Nonogram) (x : Nat) : Option (List CellState) :=
  if g.width ≤ x then none
  else some ((List.range g.height).map
    (fun y => g.cells.getD (g.xy_to_index x y) CellState.Undecided))

/-- `Nonogram::clear_solution`: reset every cell to `Undecided`. -/
def Nonogram.clear_solution (g : Nonogram) : Nonogram :=
  { g with cells := g.cells.map (fun _ => CellState.Undecided) }

-- ## Candidate generation (src/solver.rs)

/-- Recursion core of `make_candidates` in src/solver.rs, with an explicit
recursion-depth counter added to make the recursion structural.  The Rust
function recurses from `nth_seq` up to `total_seqs + 1`, so its call depth
is exactly `total_seqs + 2 - nth_seq`; the wrapper `make_candidates`
supplies that amount, so the `0` fuel case is never reached from it. -/
def mcAux : Nat → Nat → Nat → Nat → List Nat → List (List Nat)
  | 0, _, _, _, _ => []
  | fuel + 1, blanks, nth_seq, total_seqs, base =>
    if total_seqs < nth_seq then
      (if blanks = 0 then [base] else [])
    else
      let min := if nth_seq = 1 ∨ nth_seq = total_seqs then 0 else 1
      ((List.range (blanks + 1)).drop min).flatMap
        (fun i => mcAux fuel (blanks - i) (nth_seq + 1) total_seqs (base ++ [i]))

/-- `make_candidates` in src/solver.rs: enumerate every assignment of the
`blanks` spare empty cells to the gap slots `nth_seq .. total_seqs`, where
interior slots get at least one blank and the first and last slots at
least zero. -/
def make_candidates (blanks nth_seq total_seqs : Nat) (base : List Nat) : List (List Nat) :=
  mcAux (total_seqs + 2 - nth_seq) blanks nth_seq total_seqs base

/-- `into_mask` in src/solver.rs: materialize a gap-length assignment
`empty` and the run lengths `filled` into a cell-state mask by
interleaving `Empty × e` and `Filled × f` blocks (`filled` is chained
with a final `0`).  The source asserts `empty.len() == filled.len() + 1`;
like the Rust iterator `zip`, the embedding truncates to the shorter side. -/
def into_mask (empty filled : List Nat) : CandidateMask :=
  (empty.zip (filled ++ [0])).flatMap
    (fun ef => List.replicate ef.1 CellState.Empty ++ List.replicate ef.2 CellState.Filled)

/-- `candidates` in src/solver.rs: the full candidate set for a
constraint and a capacity.  The source computes
`blanks = capacity - occupation` on `usize`, which underflows (a panic in
debug builds) when the occupation exceeds the capacity; that panic is
modelled as `none`. -/
def candidates (constraint : Constraint) (capacity : Nat) : Option CandidateMaskSet :=
  let count := constraint.length + 1
  let occupation := constraint.sum
  if capacity < occupation then none
  else
    let blanks := capacity - occupation
    some ((make_candidates blanks 1 count []).map (fun cand => into_mask cand constraint))

-- ## Consensus and filtering (src/solver.rs)

/-- `find_consensus` in src/solver.rs: left-fold of the pairwise
`consensus_eq` zip starting from the first mask.  The source reads
`cands[0]`, which panics when the set is empty; modelled as `none`. -/
def find_consensus (cands : CandidateMaskSet) : Option CandidateMask :=
  match cands with
  | [] => none
  | first :: rest =>
    some (rest.foldl (fun ret cand => (ret.zip cand).map (fun ab => ab.1.consensus_eq ab.2)) first)

/-- `can_place` in src/solver.rs: a candidate fits a line iff every grid
cell accepts the candidate cell at that position (zip truncates). -/
def can_place (grid cand : List CellState) : Bool :=
  (grid.zip cand).all (fun gc => gc.1.accepts gc.2)

-- ## The Solver (src/solver.rs)

/-- The `Solver` struct: per-row and per-column candidate sets plus the
grid being solved (the Rust `&mut Nonogram` is modelled by value). -/
structure Solver where
  rows : List CandidateMaskSet
  cols : List CandidateMaskSet
  nono : Nonogram
deriving DecidableEq, Repr

/-- `Solver::new`: generate the candidate sets for every row constraint
(with capacity `width`) and every column constraint (with capacity
`height`).  `none` propagates a candidate-generation panic. -/
def Solver.new (nono : Nonogram) : Option Solver := do
  let rows ← nono.rows.mapM (fun r => candidates r nono.width)
  let cols ← nono.cols.mapM (fun c => candidates c nono.height)
  pure { rows := rows, cols := cols, nono := nono }

/-- One consensus write-back pass over a single line (the inner loop of
`Solver::consensus_step`): every non-`Undecided` consensus cell is
written into the grid at `pos i`, unconditionally overwriting whatever
the grid held there. -/
def write_consensus (g : Nonogram) (pos : Nat → Nat) (consensus : CandidateMask) : Nonogram :=
  { g with
    cells := consensus.enum.foldl
      (fun cs isq => if isq.2 = CellState.Undecided then cs else cs.set (pos isq.1) isq.2)
      g.cells }

/-- The row half of `Solver::consensus_step`: for each `(y, row)` pair,
write `find_consensus row` into grid row `y`.  `none` propagates the
`find_consensus` panic on an empty candidate set. -/
def consensus_rows (g : Nonogram) (rows : List CandidateMaskSet) : Option Nonogram :=
  rows.enum.foldlM
    (fun g' yrow =>
      (find_consensus yrow.2).map (fun c => write_consensus g' (fun x => g'.xy_to_index x yrow.1) c))
    g

/-- The column half of `Solver::consensus_step`: for each `(x, col)`
pair, write `find_consensus col` into grid column `x`. -/
def consensus_cols (g : Nonogram) (cols : List CandidateMaskSet) : Option Nonogram :=
  cols.enum.foldlM
    (fun g' xcol =>
      (find_consensus xcol.2).map (fun c => write_consensus g' (fun y => g'.xy_to_index xcol.1 y) c))
    g

/-- `Solver::consensus_step`: rows first, then columns. -/
def consensus_step (s : Solver) : Option Solver :=
  (consensus_rows s.nono s.rows).bind
    (fun g => (consensus_cols g s.cols).map (fun g' => { s with nono := g' }))

/-- `Solver::filter_step`: for each row `y` in `0..height`, keep only the
candidates that `can_place` on the grid row; same for each column.  The
source unwraps `row(y)` / `column(x)`, always `some` for these indices;
the embedding uses `getD []` for the same reason. -/
def filter_step (s : Solver) : Solver :=
  let rows := (List.range s.nono.height).map
    (fun y => (s.rows.getD y []).filter (fun cand => can_place ((s.nono.row y).getD []) cand))
  let cols := (List.range s.nono.width).map
    (fun x => (s.cols.getD x []).filter (fun cand => can_place ((s.nono.column x).getD []) cand))
  { s with rows := rows, cols := cols }

/-- Observable outcome of running `Solver::solve` for a bounded number of
loop iterations: the Rust function returns `()` with the final solver
state (`ok`), panics (`panicked`), or is still looping when the bound
runs out (`outOfFuel`).  `solve` returning `ok` for some fuel means the
Rust loop terminates; `outOfFuel` for every fuel means it loops forever. -/
inductive RunResult where
  | ok (s : Solver)
  | panicked
  | outOfFuel
deriving DecidableEq, Repr

/-- Projection: the final solver state of a normally terminated run. -/
def RunResult.final : RunResult → Option Solver
  | RunResult.ok s => some s
  | _ => none

/-- The `while` loop of `Solver::solve`: while any cell is `Undecided`,
run `consensus_step` then `filter_step`. -/
def solve_loop : Nat → Solver → RunResult
  | 0, _ => RunResult.outOfFuel
  | fuel + 1, s =>
    if s.nono.cells.any (fun c => decide (c = CellState.Undecided)) then
      match consensus_step s with
      | none => RunResult.panicked
      | some s' => solve_loop fuel (filter_step s')
    else RunResult.ok s

/-- `Solver::solve`: clear the grid, then run the propagation loop. -/
def Solver.solve (fuel : Nat) (s : Solver) : RunResult :=
  solve_loop fuel { s with nono := s.nono.clear_solution }

-- ## Concrete grids used to exercise the solver

/-- A 2×2 grid with row constraints `[1], [1]` and column constraints
`[1], [1]`: its constraints admit two distinct consistent solutions (the
two diagonals), so line-local deduction can make no progress. -/
def nono1 : Nonogram := Nonogram.new 2 2 [[1], [1]] [[1], [1]]

/-- The solver state `Solver::new` builds for `nono1`: each line's
candidate set is `{X_, _X}`. -/
def solver1 : Solver :=
  { rows := [[[CellState.Filled, CellState.Empty], [CellState.Empty, CellState.Filled]],
             [[CellState.Filled, CellState.Empty], [CellState.Empty, CellState.Filled]]]
    cols := [[[CellState.Filled, CellState.Empty], [CellState.Empty, CellState.Filled]],
             [[CellState.Filled, CellState.Empty], [CellState.Empty, CellState.Filled]]]
    nono := nono1 }

/-- A 2×2 grid with row constraints `[2], []` and column constraints
`[2], []`: rows demand `XX / __` while columns demand both left cells
filled and both right cells empty, so the two phases of the consensus
step disagree on cells (0,1) and (1,0). -/
def nono3 : Nonogram := Nonogram.new 2 2 [[2], []] [[2], []]

/-- A 2×1 grid with row constraint `[1]` and column constraints `[], []`:
the columns force both cells empty, contradicting the row constraint. -/
def nono4 : Nonogram := Nonogram.new 2 1 [[], []] [[1]]

/-- A 3×3 grid with row constraints `[3], [3], [1]` and column
constraints `[1], [2], [2]`: round 1 determines rows 0 and 1 fully
filled, after which no candidate of column 0 (constraint `[1]`) fits, so
filtering empties that column's candidate set while row 2 is still
undecided. -/
def nono5 : Nonogram := Nonogram.new 3 3 [[1], [2], [2]] [[3], [3], [1]]

-- ## Helper lemmas

/-- If a solver state has an undecided cell and is a fixpoint of one
consensus-plus-filter round, the `solve` loop never leaves it. -/
theorem solve_loop_fixpoint (s : Solver)
    (h1 : s.nono.cells.any (fun c => decide (c = CellState.Undecided)) = true)
    (h2 : (consensus_step s).map filter_step = some s) :
    ∀ fuel, solve_loop fuel s = RunResult.outOfFuel := by
  intro fuel
  induction fuel with
  | zero => rfl
  | succ n ih =>
    cases hc : consensus_step s with
    | none => rw [hc] at h2; simp at h2
    | some t =>
      have hf : filter_step t = s := by
        rw [hc] at h2
        simpa using h2
      simp only [solve_loop, h1, if_true, hc, hf]
      exact ih

/-- Every gap assignment produced by the generator recursion distributes
exactly the requested number of blanks over exactly the remaining slots. -/
theorem mcAux_mem (fuel : Nat) : ∀ (blanks nth_seq total_seqs : Nat) (base res : List Nat),
    res ∈ mcAux fuel blanks nth_seq total_seqs base →
    res.sum = base.sum + blanks
      ∧ res.length = base.length + (total_seqs + 1 - nth_seq) := by
  induction fuel with
  | zero =>
    intro blanks nth_seq total_seqs base res h
    simp [mcAux] at h
  | succ n ih =>
    intro blanks nth_seq total_seqs base res h
    rw [mcAux] at h
    by_cases hlt : total_seqs < nth_seq
    · rw [if_pos hlt] at h
      by_cases hb : blanks = 0
      · rw [if_pos hb] at h
        simp at h
        subst h
        refine ⟨by omega, by omega⟩
      · rw [if_neg hb] at h
        simp at h
    · rw [if_neg hlt] at h
      simp only [List.mem_flatMap] at h
      obtain ⟨i, hi, hres⟩ := h
      have hi' : i ≤ blanks := by
        have hmem := List.mem_of_mem_drop hi
        rw [List.mem_range] at hmem
        omega
      obtain ⟨hsum, hlen⟩ := ih (blanks - i) (nth_seq + 1) total_seqs (base ++ [i]) res hres
      constructor
      · rw [hsum, List.sum_append]
        simp
        omega
      · rw [hlen, List.length_append]
        simp
        omega

/-- Materializing a gap assignment of `k + 1` gaps against `k` run
lengths yields a mask whose length is the total of all gaps and runs. -/
theorem into_mask_length (e : List Nat) : ∀ f : List Nat, e.length = f.length + 1 →
    (into_mask e f).length = e.sum + f.sum := by
  induction e with
  | nil =>
    intro f h
    simp at h
  | cons a e ih =>
    intro f h
    cases f with
    | nil =>
      have he : e = [] := by
        have : e.length = 0 := by simpa using h
        exact List.length_eq_zero.mp this
      subst he
      simp [into_mask]
    | cons b f' =>
      have h' : e.length = f'.length + 1 := by simpa using h
      have step : into_mask (a :: e) (b :: f')
          = (List.replicate a CellState.Empty ++ List.replicate b CellState.Filled)
            ++ into_mask e f' := by
        simp [into_mask, List.cons_append]
      rw [step, List.length_append, List.length_append, List.length_replicate,
        List.length_replicate, ih f' h']
      simp [List.sum_cons]
      omega

/-- With a single gap slot the generator recursion puts every blank in
that slot: the one legal assignment. -/
theorem make_candidates_single_slot (blanks : Nat) :
    make_candidates blanks 1 1 [] = [[blanks]] := by
  have key : ∀ n : Nat, n ≤ blanks →
      (List.range n).flatMap
        (fun i => if blanks - i = 0 then [[i]] else ([] : List (List Nat))) = [] := by
    intro n
    induction n with
    | zero => intro _; rfl
    | succ k ih =>
      intro hk
      rw [List.range_succ, List.flatMap_append, ih (by omega)]
      have hne : ¬(blanks - k = 0) := by omega
      simp [hne]
  show mcAux 2 blanks 1 1 [] = [[blanks]]
  rw [mcAux]
  rw [if_neg (by omega)]
  simp only [mcAux]
  norm_num
  rw [List.range_succ, List.flatMap_append, key blanks (le_refl _)]
  simp

/-- Claim C7: under the fit condition
`sum(constraint) + (len(constraint) - 1) <= capacity` (trivially true
for the empty constraint), every mask `generate` produces has length
exactly `capacity`, and for the empty constraint the result is the
single all-`Empty` mask of that length. -/
theorem generated_masks_length (c : Constraint) (cap : Nat)
    (h : c.sum + (c.length - 1) ≤ cap) :
    (∀ ms, candidates c cap = some ms → ∀ m ∈ ms, m.length = cap)
    ∧ (c = [] → candidates c cap = some [List.replicate cap CellState.Empty]) := by
  have hocc : c.sum ≤ cap := by omega
  constructor
  · intro ms hms m hm
    simp only [candidates] at hms
    rw [if_neg (by omega)] at hms
    have hms' : (make_candidates (cap - c.sum) 1 (c.length + 1) []).map
        (fun cand => into_mask cand c) = ms := Option.some.inj hms
    rw [← hms', List.mem_map] at hm
    obtain ⟨gaps, hg, hmask⟩ := hm
    obtain ⟨hsum, hlen⟩ := mcAux_mem _ _ _ _ _ _ hg
    simp at hsum hlen
    subst hmask
    rw [into_mask_length gaps c (by omega)]
    omega
  · intro hc
    subst hc
    simp only [candidates, List.sum_nil, List.length_nil, Nat.sub_zero]
    rw [if_neg (by omega)]
    rw [make_candidates_single_slot]
    simp [into_mask]

/-- Witness for C7 at constraint `[1,2]`, capacity `5`: the hypothesis
holds and the first generated mask indeed has length 5. -/
theorem generated_masks_length_witness :
    ([1, 2] : Constraint).sum + (([1, 2] : Constraint).length - 1) ≤ 5
    ∧ [CellState.Filled, CellState.Empty, CellState.Filled, CellState.Filled,
        CellState.Empty].length = 5 :=
  ⟨by decide,
    (generated_masks_length [1, 2] 5 (by decide)).1
      [[CellState.Filled, CellState.Empty, CellState.Filled, CellState.Filled,
        CellState.Empty],
       [CellState.Filled, CellState.Empty, CellState.Empty, CellState.Filled,
        CellState.Filled],
       [CellState.Empty, CellState.Filled, CellState.Empty, CellState.Filled,
        CellState.Filled]]
      (by decide)
      [CellState.Filled, CellState.Empty, CellState.Filled, CellState.Filled,
        CellState.Empty]
      (by decide)⟩

/-- Claim C8: a candidate survives filtering iff at every position of
the line the grid's known cell is `Undecided` or equals the candidate's
cell there; the grid cell is the one applying `accepts`, for every grid
line and equal-length candidate. -/
theorem can_place_iff (grid cand : List CellState) (h : grid.length = cand.length) :
    can_place grid cand = true ↔
      ∀ i, i < grid.length →
        (grid.getD i CellState.Undecided = CellState.Undecided ∨
          grid.getD i CellState.Undecided = cand.getD i CellState.Undecided) := by
  induction grid generalizing cand with
  | nil => simp [can_place]
  | cons g gs ih =>
    cases cand with
    | nil => simp at h
    | cons c cs =>
      have h' : gs.length = cs.length := by simpa using h
      have lhs_eq : can_place (g :: gs) (c :: cs) = (g.accepts c && can_place gs cs) := by
        simp [can_place]
      rw [lhs_eq, Bool.and_eq_true, ih cs h']
      have hacc : (g.accepts c = true) ↔ (g = CellState.Undecided ∨ g = c) := by
        simp [CellState.accepts]
      rw [hacc]
      constructor
      · rintro ⟨h0, hrest⟩ i hi
        cases i with
        | zero => simpa using h0
        | succ j =>
          have hj : j < gs.length := by simpa using hi
          simpa using hrest j hj
      · intro hall
        constructor
        · simpa using hall 0 (by simp)
        · intro j hj
          simpa using hall (j + 1) (by simpa using hj)

/-- Witness for C8: a concrete 2-cell line where the candidate fits. -/
theorem can_place_iff_witness :
    ([CellState.Undecided, CellState.Filled] : List CellState).length
      = ([CellState.Filled, CellState.Filled] : List CellState).length
    ∧ can_place [CellState.Undecided, CellState.Filled]
        [CellState.Filled, CellState.Filled] = true :=
  ⟨rfl,
    (can_place_iff [CellState.Undecided, CellState.Filled]
      [CellState.Filled, CellState.Filled] rfl).mpr (by decide)⟩

/-- The pairwise combinator `find_consensus` folds with: position-wise
`consensus_eq` of two masks (zip truncates to the shorter mask). -/
def consensus_zip (a b : CandidateMask) : CandidateMask :=
  (a.zip b).map (fun ab => ab.1.consensus_eq ab.2)

/-- Unfolding `find_consensus` on a non-empty set: a left-fold of
`consensus_zip` starting from the first mask. -/
theorem find_consensus_cons (first : CandidateMask) (rest : CandidateMaskSet) :
    find_consensus (first :: rest) = some (rest.foldl consensus_zip first) := rfl

/-- Zipping against an equal-length mask preserves the length. -/
theorem consensus_zip_length (a b : CandidateMask) (h : b.length = a.length) :
    (consensus_zip a b).length = a.length := by
  simp [consensus_zip, h]

/-- Position-wise view of `consensus_zip` on equal-length masks. -/
theorem consensus_zip_getD (a b : CandidateMask) (i : Nat) (hi : i < a.length)
    (hb : b.length = a.length) :
    (consensus_zip a b).getD i CellState.Undecided
      = (a.getD i CellState.Undecided).consensus_eq (b.getD i CellState.Undecided) := by
  have hiz : i < (consensus_zip a b).length := by rw [consensus_zip_length a b hb]; exact hi
  have hib : i < b.length := by omega
  rw [List.getD_eq_getElem _ _ hiz, List.getD_eq_getElem _ _ hi, List.getD_eq_getElem _ _ hib]
  simp [consensus_zip]

/-- The consensus fold preserves the common mask length. -/
theorem foldl_consensus_zip_length (rest : CandidateMaskSet) :
    ∀ first : CandidateMask, (∀ m ∈ rest, m.length = first.length) →
      (rest.foldl consensus_zip first).length = first.length := by
  induction rest with
  | nil => intro first _; rfl
  | cons m rest ih =>
    intro first h
    have hm : m.length = first.length := h m (by simp)
    have hlen : (consensus_zip first m).length = first.length := consensus_zip_length first m hm
    rw [List.foldl_cons, ih (consensus_zip first m)
      (fun m' hm' => by rw [hlen]; exact h m' (List.mem_cons_of_mem _ hm')), hlen]

/-- `Undecided` is absorbing for the fold combinator. -/
theorem foldl_consensus_eq_undecided (l : List CellState) :
    l.foldl CellState.consensus_eq CellState.Undecided = CellState.Undecided := by
  induction l with
  | nil => rfl
  | cons x l ih =>
    have hx : CellState.Undecided.consensus_eq x = CellState.Undecided := by
      cases x <;> rfl
    rw [List.foldl_cons, hx, ih]

/-- The scalar consensus fold returns the start value when every element
equals it, and `Undecided` otherwise. -/
theorem foldl_consensus_eq_char (l : List CellState) : ∀ v : CellState,
    l.foldl CellState.consensus_eq v
      = if l.all (fun x => decide (x = v)) then v else CellState.Undecided := by
  induction l with
  | nil => intro v; simp
  | cons x l ih =>
    intro v
    rw [List.foldl_cons]
    by_cases hx : x = v
    · subst hx
      have hself : x.consensus_eq x = x := by simp [CellState.consensus_eq]
      rw [hself, ih]
      simp
    · have hcx : v.consensus_eq x = CellState.Undecided := by
        have : ¬(v = x) := fun hvx => hx hvx.symm
        simp [CellState.consensus_eq, this]
      rw [hcx, foldl_consensus_eq_undecided]
      have hall : (x :: l).all (fun y => decide (y = v)) = false := by simp [hx]
      rw [hall]
      simp

/-- The mask-level consensus fold, viewed at one index, is the scalar
fold over the masks' values at that index. -/
theorem foldl_consensus_zip_getD (rest : CandidateMaskSet) :
    ∀ (first : CandidateMask) (i : Nat), i < first.length →
      (∀ m ∈ rest, m.length = first.length) →
      (rest.foldl consensus_zip first).getD i CellState.Undecided
        = (rest.map (fun m => m.getD i CellState.Undecided)).foldl CellState.consensus_eq
            (first.getD i CellState.Undecided) := by
  induction rest with
  | nil => intro first i _ _; rfl
  | cons m rest ih =>
    intro first i hi h
    have hm : m.length = first.length := h m (by simp)
    have hlen : (consensus_zip first m).length = first.length := consensus_zip_length first m hm
    rw [List.foldl_cons, List.map_cons, List.foldl_cons,
      ← consensus_zip_getD first m i hi hm]
    exact ih (consensus_zip first m) i (by omega)
      (fun m' hm' => by rw [hlen]; exact h m' (List.mem_cons_of_mem _ hm'))

/-- Position-wise characterisation of the consensus fold: the first
mask's value when all other masks agree with it there, else `Undecided`. -/
theorem foldl_consensus_char (first : CandidateMask) (rest : CandidateMaskSet) (i : Nat)
    (hi : i < first.length) (h : ∀ m ∈ rest, m.length = first.length) :
    (rest.foldl consensus_zip first).getD i CellState.Undecided
      = if (rest.map (fun m => m.getD i CellState.Undecided)).all
            (fun x => decide (x = first.getD i CellState.Undecided))
        then first.getD i CellState.Undecided else CellState.Undecided := by
  rw [foldl_consensus_zip_getD rest first i hi h, foldl_consensus_eq_char]

/-- The tail-agreement condition says all values in the whole list are
equal to the head value. -/
theorem all_tail_iff (v : CellState) (t : List CellState) :
    (t.all (fun x => decide (x = v)) = true) ↔ ∀ x ∈ v :: t, x = v := by
  rw [List.all_eq_true]
  constructor
  · intro hall x hx
    rcases List.mem_cons.mp hx with hx | hx
    · exact hx
    · simpa using hall x hx
  · intro hall x hx
    simpa using hall x (List.mem_cons_of_mem _ hx)

/-- The head-or-undecided reduction of a list of cell values is invariant
under permutation. -/
theorem head_consensus_perm (v₁ v₂ : CellState) (t₁ t₂ : List CellState)
    (hp : (v₁ :: t₁).Perm (v₂ :: t₂)) :
    (if t₁.all (fun x => decide (x = v₁)) then v₁ else CellState.Undecided)
      = (if t₂.all (fun x => decide (x = v₂)) then v₂ else CellState.Undecided) := by
  by_cases h₁ : ∀ x ∈ v₁ :: t₁, x = v₁
  · have hv₂ : v₂ = v₁ := h₁ v₂ (hp.symm.subset (by simp))
    have ht₁ : t₁.all (fun x => decide (x = v₁)) = true := (all_tail_iff v₁ t₁).mpr h₁
    have ht₂ : t₂.all (fun x => decide (x = v₂)) = true := by
      refine (all_tail_iff v₂ t₂).mpr ?_
      intro x hx
      rw [hv₂]
      exact h₁ x (hp.symm.subset hx)
    rw [ht₁, ht₂, if_pos rfl, if_pos rfl, hv₂]
  · have h₂ : ¬∀ y ∈ v₂ :: t₂, y = v₂ := by
      intro hall
      refine h₁ ?_
      intro x hx
      have hxv₂ : x = v₂ := hall x (hp.subset hx)
      have hv₁v₂ : v₁ = v₂ := hall v₁ (hp.subset (by simp))
      rw [hxv₂, hv₁v₂]
    have ht₁ : t₁.all (fun x => decide (x = v₁)) = false := by
      rcases Bool.eq_false_or_eq_true (t₁.all (fun x => decide (x = v₁))) with ht | hf
      · exact absurd ((all_tail_iff v₁ t₁).mp ht) h₁
      · exact hf
    have ht₂ : t₂.all (fun x => decide (x = v₂)) = false := by
      rcases Bool.eq_false_or_eq_true (t₂.all (fun x => decide (x = v₂))) with ht | hf
      · exact absurd ((all_tail_iff v₂ t₂).mp ht) h₂
      · exact hf
    rw [ht₁, ht₂]
    simp

/-- `all` over a mapped list tests the composed predicate. -/
theorem map_all_bool {α β : Type} (l : List α) (f : α → β) (p : β → Bool) :
    (l.map f).all p = l.all (fun a => p (f a)) := by
  induction l with
  | nil => rfl
  | cons a l ih => simp [ih]

/-- Claim C9: `consensus_eq` is associative and commutative, the
consensus of a set of equal-length masks is invariant under reordering
(fold order) of the set, and at each index the result is the common cell
state when all masks agree there and `Undecided` otherwise. -/
theorem consensus_combinator_algebra :
    (∀ a b c : CellState, (a.consensus_eq b).consensus_eq c
        = a.consensus_eq (b.consensus_eq c))
    ∧ (∀ a b : CellState, a.consensus_eq b = b.consensus_eq a)
    ∧ (∀ (n : Nat) (l₁ l₂ : CandidateMaskSet), l₁.Perm l₂ →
        (∀ m ∈ l₁, m.length = n) → find_consensus l₁ = find_consensus l₂)
    ∧ (∀ (n : Nat) (cands : CandidateMaskSet) (r : CandidateMask),
        (∀ m ∈ cands, m.length = n) → find_consensus cands = some r →
        ∀ i, i < n →
          r.getD i CellState.Undecided
            = if cands.all (fun m => decide (m.getD i CellState.Undecided
                  = (cands.headD []).getD i CellState.Undecided))
              then (cands.headD []).getD i CellState.Undecided
              else CellState.Undecided) := by
  refine ⟨?_, ?_, ?_, ?_⟩
  · intro a b c
    cases a <;> cases b <;> cases c <;> rfl
  · intro a b
    cases a <;> cases b <;> rfl
  · intro n l₁ l₂ hp hlen
    cases l₁ with
    | nil =>
      have h₂ : l₂ = [] := hp.nil_eq.symm
      rw [h₂]
    | cons f₁ r₁ =>
      cases l₂ with
      | nil =>
        have := hp.length_eq
        simp at this
      | cons f₂ r₂ =>
        rw [find_consensus_cons, find_consensus_cons]
        congr 1
        have hf₁ : f₁.length = n := hlen f₁ (by simp)
        have hlen₂ : ∀ m ∈ f₂ :: r₂, m.length = n := fun m hm => hlen m (hp.symm.subset hm)
        have hf₂ : f₂.length = n := hlen₂ f₂ (by simp)
        have hr₁ : ∀ m ∈ r₁, m.length = f₁.length := fun m hm => by
          rw [hf₁]; exact hlen m (List.mem_cons_of_mem _ hm)
        have hr₂ : ∀ m ∈ r₂, m.length = f₂.length := fun m hm => by
          rw [hf₂]; exact hlen₂ m (List.mem_cons_of_mem _ hm)
        have hL₁ : (r₁.foldl consensus_zip f₁).length = n := by
          rw [foldl_consensus_zip_length r₁ f₁ hr₁, hf₁]
        have hL₂ : (r₂.foldl consensus_zip f₂).length = n := by
          rw [foldl_consensus_zip_length r₂ f₂ hr₂, hf₂]
        apply List.ext_getElem (by rw [hL₁, hL₂])
        intro i hi₁ hi₂
        rw [← List.getD_eq_getElem _ CellState.Undecided hi₁,
          ← List.getD_eq_getElem _ CellState.Undecided hi₂]
        rw [foldl_consensus_char f₁ r₁ i (by omega) hr₁,
          foldl_consensus_char f₂ r₂ i (by omega) hr₂]
        have hperm : ((f₁.getD i CellState.Undecided)
              :: r₁.map (fun m => m.getD i CellState.Undecided)).Perm
            ((f₂.getD i CellState.Undecided)
              :: r₂.map (fun m => m.getD i CellState.Undecided)) := by
          have := hp.map (fun m => m.getD i CellState.Undecided)
          simpa using this
        exact head_consensus_perm _ _ _ _ hperm
  · intro n cands r hlen hfc i hi
    cases cands with
    | nil => simp [find_consensus] at hfc
    | cons first rest =>
      rw [find_consensus_cons] at hfc
      have hr : r = rest.foldl consensus_zip first := (Option.some.inj hfc).symm
      subst hr
      have hf : first.length = n := hlen first (by simp)
      have hrest : ∀ m ∈ rest, m.length = first.length := fun m hm => by
        rw [hf]; exact hlen m (List.mem_cons_of_mem _ hm)
      rw [foldl_consensus_char first rest i (by omega) hrest]
      simp only [List.headD_cons]
      have hcond : (rest.map (fun m => m.getD i CellState.Undecided)).all
            (fun x => decide (x = first.getD i CellState.Undecided))
          = (first :: rest).all (fun m => decide (m.getD i CellState.Undecided
              = first.getD i CellState.Undecided)) := by
        rw [List.all_cons, map_all_bool]
        simp
      rw [hcond]

/-- Witness for C9: the consensus of two concrete equal-length masks is
unchanged when the set is reordered. -/
theorem consensus_combinator_algebra_witness :
    find_consensus [[CellState.Filled, CellState.Empty],
        [CellState.Empty, CellState.Filled]]
      = find_consensus [[CellState.Empty, CellState.Filled],
        [CellState.Filled, CellState.Empty]] :=
  consensus_combinator_algebra.2.2.1 2 _ _ (List.Perm.swap _ _ _) (by decide)

/-- Claim C1: the spec demands that a round making no progress on a
not-fully-determined grid stop with `StuckUndetermined`, so that `solve`
terminates on every input, in particular on grids whose constraints
admit two distinct solutions.  The code has no progress check and no
`StuckUndetermined` state: on `nono1` (two distinct solutions) the state
after clearing is a fixpoint of the round with undecided cells left, so
the `while` loop of `Solver::solve` never exits, whatever iteration
bound it is given. -/
theorem solve_loops_forever_on_ambiguous (fuel : Nat) :
    (Solver.new nono1).map (Solver.solve fuel) = some RunResult.outOfFuel := by
  have h : Solver.new nono1 = some solver1 := by decide
  rw [h]
  show some (Solver.solve fuel solver1) = some RunResult.outOfFuel
  have hs : Solver.solve fuel solver1 = RunResult.outOfFuel := by
    show solve_loop fuel { solver1 with nono := solver1.nono.clear_solution }
      = RunResult.outOfFuel
    have hclear : { solver1 with nono := solver1.nono.clear_solution } = solver1 := by decide
    rw [hclear]
    exact solve_loop_fixpoint solver1 (by decide) (by decide) fuel
  rw [hs]

/-- Claim C2: the spec demands an explicit `InfeasibleConstraint` error
when `sum(constraint) > capacity`.  The code has no such error type: it
computes `blanks = capacity - occupation` with an underflowing `usize`
subtraction, which panics (modelled as `none`); `generate([3,3], 5)`
therefore aborts instead of reporting `InfeasibleConstraint`. -/
theorem candidates_underflow_panics :
    candidates [3, 3] 5 = none := by decide

/-- Claim C3: the spec demands a contradiction check before every
consensus write into an already-determined cell.  The code checks
nothing (its own FIXME comments admit it): on `nono3`, after the row
phase of `consensus_step`, cell (0,1) (index 2) is determined `Empty`,
and the column phase then silently overwrites it with `Filled`; no
`Contradiction` outcome exists anywhere in the code. -/
theorem consensus_silently_overwrites :
    (Solver.new nono3).map (fun s =>
      ((consensus_rows s.nono s.rows).map (fun g => g.cells.getD 2 CellState.Undecided),
       (consensus_step s).map (fun t => t.nono.cells.getD 2 CellState.Undecided)))
    = some (some CellState.Empty, some CellState.Filled) := by decide

/-- Claim C4: the spec demands that `solve` surface exactly one of
`{Solved, StuckUndetermined, Contradiction, Infeasible}` as a tagged
result.  The code's `solve` returns `()`: on `nono4` the loop exits
normally with grid `[Empty, Empty]` and row 0's candidate set filtered
to empty — a contradictory state — yet the caller receives no tag
distinguishing it from a solved grid (and on other inputs, such as
`nono1`, `solve` never returns at all). -/
theorem solve_returns_no_tagged_outcome :
    (Solver.new nono4).map (fun s =>
      (Solver.solve 2 s).final.map (fun t => (t.nono.cells, t.rows)))
    = some (some ([CellState.Empty, CellState.Empty], [[]])) := by decide

/-- Claim C5: the spec demands that filtering a line's candidate set to
empty be detected and reported as a `Contradiction`, and that consensus
never be invoked on an empty set.  The code detects nothing: on `nono5`,
round 1 fills rows 0 and 1, filtering then empties column 0's candidate
set, and round 2's `consensus_step` calls `find_consensus` on that empty
set, whose `cands[0]` read panics. -/
theorem solver_panics_on_emptied_candidate_set :
    (Solver.new nono5).map (Solver.solve 9) = some RunResult.panicked := by decide

/-- Claim C6 (counterexample): the claim says `generate([1,2], 5)`
yields 6 masks; the stars-and-bars rule at capacity 5 admits only 3 gap
assignments, and the code produces exactly 3 masks. -/
theorem candidates_1_2_5_not_six_masks :
    (candidates [1, 2] 5).map List.length ≠ some 6 := by decide

/-- Claim C6 (amended): `generate([1,2], 5)` yields, as a set, exactly
the 3 masks of all valid placements at capacity 5 (gap assignments
(0,1,1), (0,2,0), (1,1,0)); the 6-mask enumeration of the spec (and of
the solver's doc comment) corresponds to capacity 6. -/
theorem candidates_1_2_5_exact :
    candidates [1, 2] 5 =
      some [[CellState.Filled, CellState.Empty, CellState.Filled, CellState.Filled,
             CellState.Empty],
            [CellState.Filled, CellState.Empty, CellState.Empty, CellState.Filled,
             CellState.Filled],
            [CellState.Empty, CellState.Filled, CellState.Empty, CellState.Filled,
             CellState.Filled]]
    ∧ (candidates [1, 2] 6).map List.length = some 6 := by decide

/-- Claim C10: on a grid whose cell array has the constructed size
`width * height`, `row y` is `none` exactly when `y ≥ height` and
otherwise a slice of length `width`, and `column x` is `none` exactly
when `x ≥ width` and otherwise a gathered vector of length `height`. -/
theorem row_column_accessors (g : Nonogram) (h : g.cells.length = g.width * g.height) :
    (∀ y, (g.row y = none ↔ g.height ≤ y)
      ∧ ∀ l, g.row y = some l → l.length = g.width)
    ∧ (∀ x, (g.column x = none ↔ g.width ≤ x)
      ∧ ∀ l, g.column x = some l → l.length = g.height) := by
  constructor
  · intro y
    constructor
    · by_cases hy : g.height ≤ y
      · simp [Nonogram.row, hy]
      · simp [Nonogram.row, hy]
    · intro l hl
      rw [Nonogram.row] at hl
      by_cases hy : g.height ≤ y
      · rw [if_pos hy] at hl
        cases hl
      · rw [if_neg hy] at hl
        have hl' : (g.cells.drop (g.xy_to_index 0 y)).take g.width = l := Option.some.inj hl
        rw [← hl', List.length_take, List.length_drop, Nonogram.xy_to_index, h]
        have hmul : (y + 1) * g.width ≤ g.height * g.width :=
          Nat.mul_le_mul_right _ (by omega)
        have h2 : y * g.width + g.width ≤ g.width * g.height := by
          calc y * g.width + g.width = (y + 1) * g.width := by ring
            _ ≤ g.height * g.width := hmul
            _ = g.width * g.height := Nat.mul_comm _ _
        omega
  · intro x
    constructor
    · by_cases hx : g.width ≤ x
      · simp [Nonogram.column, hx]
      · simp [Nonogram.column, hx]
    · intro l hl
      rw [Nonogram.column] at hl
      by_cases hx : g.width ≤ x
      · rw [if_pos hx] at hl
        cases hl
      · rw [if_neg hx] at hl
        have hl' : (List.range g.height).map
            (fun y => g.cells.getD (g.xy_to_index x y) CellState.Undecided) = l :=
          Option.some.inj hl
        rw [← hl', List.length_map, List.length_range]

/-- Witness for C10 on the concrete 2×2 grid `nono1`. -/
theorem row_column_accessors_witness :
    nono1.cells.length = nono1.width * nono1.height
    ∧ (nono1.row 0 = none ↔ nono1.height ≤ 0) :=
  ⟨by decide, ((row_column_accessors nono1 (by decide)).1 0).1⟩

/-- Witness for C1 at the concrete iteration bound 5: the loop is still
running when the bound expires. -/
theorem solve_loops_forever_on_ambiguous_witness :
    (Solver.new nono1).map (Solver.solve 5) = some RunResult.outOfFuel :=
  solve_loops_forever_on_ambiguous 5
